import Mathlib

/-!
Verification of the `math-symbols` string-interning library.

The Rust code keeps a process-wide `SymbolRegister` behind an `RwLock`:
a `Vec<String>` of names indexed by identifier, plus a hash map from
name to identifier.  We embed the register as an explicit-state value:
the vector becomes a `List String`, the hash map an association list
`List (String × Nat)` with unique keys.  Operations that panic in Rust
(out-of-bounds `Vec` indexing in `SymbolRegister::name`) return
`Option` here, with `none` standing for the panic.  Stateful operations
(`SymbolRegister::idx`, `Symbol::new`, `deserialize_sym`) take the
register as an argument and return the updated register.
-/

namespace MathSymbols

/-- Key lookup in the association list modelling the `AHashMap`.
Corresponds to `self.indices.get(name).copied()`. -/
def lookupIdx : List (String × Nat) → String → Option Nat
  | [], _ => none
  | kv :: t, n => if n = kv.1 then some kv.2 else lookupIdx t n

/-- The register: `names: Vec<String>` and `indices: AHashMap<String, usize>`. -/
structure SymbolRegister where
  names : List String
  indices : List (String × Nat)
deriving DecidableEq

/-- Model of `SymbolRegister::default()`: empty vector, empty map. -/
def SymbolRegister.default : SymbolRegister := ⟨[], []⟩

/-- Model of `SymbolRegister::name`: `&self.names[idx]`.  Rust panics when `idx`
is out of bounds; the panic is modelled by `none`. -/
def SymbolRegister.name (r : SymbolRegister) (idx : Nat) : Option String :=
  r.names[idx]?

/-- Model of `SymbolRegister::try_idx`: `self.indices.get(name).copied()`. -/
def SymbolRegister.try_idx (r : SymbolRegister) (name : String) : Option Nat :=
  lookupIdx r.indices name

/-- Model of `SymbolRegister::idx`: return the existing index if present,
otherwise insert `name` with index `self.names.len()` and push it. -/
def SymbolRegister.idx (r : SymbolRegister) (name : String) :
    Nat × SymbolRegister :=
  match r.try_idx name with
  | some i => (i, r)
  | none =>
    let new_idx := r.names.length
    (new_idx, ⟨r.names ++ [name], (name, new_idx) :: r.indices⟩)

/-- The `Symbol` handle: a single `usize` field `idx`. -/
structure Symbol where
  idx : Nat
deriving DecidableEq

/-- Derived `Default` on `Symbol`: `usize` defaults to `0`. -/
def Symbol.defaultSym : Symbol := ⟨0⟩

/-- Derived `Ord`/`PartialOrd` on the single field: identifier ordering. -/
instance : LT Symbol := ⟨fun a b => a.idx < b.idx⟩

/-- Model of `Symbol::new`: read-lock `try_idx`; on a miss take the write lock
and run `idx` (which re-checks).  Sequential semantics: the two lock
acquisitions happen back to back with no interleaved writer. -/
def Symbol.new (r : SymbolRegister) (name : String) :
    Symbol × SymbolRegister :=
  match r.try_idx name with
  | some idx => (⟨idx⟩, r)
  | none =>
    let p := r.idx name
    (⟨p.1⟩, p.2)

/-- Model of `Symbol::name`: look the identifier up in the register
(`none` models the out-of-bounds panic). -/
def Symbol.name (r : SymbolRegister) (s : Symbol) : Option String :=
  r.name s.idx

/-- Model of `serialize_sym`: fetch the symbol name and serialize it as a plain
string; the wire value is exactly the name.  `none` models the panic
raised when the identifier was never assigned. -/
def serialize_sym (r : SymbolRegister) (sym : Nat) : Option String :=
  Symbol.name r ⟨sym⟩

/-- Model of `deserialize_sym`: deserialize a string and re-intern it via
`Symbol::new`, returning the resulting identifier. -/
def deserialize_sym (r : SymbolRegister) (s : String) :
    Nat × SymbolRegister :=
  let p := Symbol.new r s
  (p.1.idx, p.2)

/-- Register states reachable from the empty register by interning. -/
inductive Reachable : SymbolRegister → Prop where
  | empty : Reachable SymbolRegister.default
  | step (r : SymbolRegister) (n : String) :
      Reachable r → Reachable (r.idx n).2

/-- Reachability of one register state from another by interning. -/
inductive ReachableFrom (r : SymbolRegister) : SymbolRegister → Prop where
  | refl : ReachableFrom r r
  | step (r' : SymbolRegister) (n : String) :
      ReachableFrom r r' → ReachableFrom r (r'.idx n).2

/-- The bijection invariant: the map and the vector are inverse. -/
def Inv (r : SymbolRegister) : Prop :=
  ∀ n i, lookupIdx r.indices n = some i ↔ r.names[i]? = some n

/-- The phase a thread running `Symbol::new(nm)` is in: before the read
lock, after a failed read-phase lookup (about to take the write lock),
or finished with a result. -/
inductive TState where
  | start : TState
  | pending : TState
  | done : Nat → TState
deriving DecidableEq

/-- One atomic step of the interleaved execution of `Symbol::new(nm)`
by several threads.  Each lock-protected section of the Rust code is a
single step: the read-locked `try_idx`, and the write-locked `idx`
(which re-checks before appending). -/
inductive CStep (nm : String) :
    SymbolRegister × List TState → SymbolRegister × List TState → Prop where
  | readHit (r : SymbolRegister) (ts : List TState) (t i : Nat)
      (hts : ts[t]? = some TState.start) (hl : r.try_idx nm = some i) :
      CStep nm (r, ts) (r, ts.set t (TState.done i))
  | readMiss (r : SymbolRegister) (ts : List TState) (t : Nat)
      (hts : ts[t]? = some TState.start) (hl : r.try_idx nm = none) :
      CStep nm (r, ts) (r, ts.set t TState.pending)
  | write (r : SymbolRegister) (ts : List TState) (t : Nat)
      (hts : ts[t]? = some TState.pending) :
      CStep nm (r, ts) ((r.idx nm).2, ts.set t (TState.done (r.idx nm).1))

/-- Inductive invariant of the concurrent runs starting from `r0` with
`nm` not yet interned: either nobody has written yet, or the register
is `r0` with `nm` appended and every finished thread got the same
identifier `r0.names.length`. -/
def ConcInv (r0 : SymbolRegister) (nm : String)
    (c : SymbolRegister × List TState) : Prop :=
  (c.1 = r0 ∧ ∀ s ∈ c.2, s = TState.start ∨ s = TState.pending) ∨
  (c.1 = (r0.idx nm).2 ∧
    ∀ s ∈ c.2, s = TState.start ∨ s = TState.pending ∨
      s = TState.done r0.names.length)

theorem new_snd_eq_idx_snd (r : SymbolRegister) (n : String) :
    (Symbol.new r n).2 = (r.idx n).2 := by
  unfold Symbol.new SymbolRegister.idx
  cases h : r.try_idx n <;> simp [h]

theorem new_fst_eq_idx_fst (r : SymbolRegister) (n : String) :
    (Symbol.new r n).1 = ⟨(r.idx n).1⟩ := by
  unfold Symbol.new SymbolRegister.idx
  cases h : r.try_idx n <;> simp [h]

theorem idx_of_hit (r : SymbolRegister) (n : String) (i : Nat)
    (h : r.try_idx n = some i) : r.idx n = (i, r) := by
  unfold SymbolRegister.idx
  simp [h]

theorem idx_of_miss (r : SymbolRegister) (n : String)
    (h : r.try_idx n = none) :
    r.idx n = (r.names.length,
      ⟨r.names ++ [n], (n, r.names.length) :: r.indices⟩) := by
  unfold SymbolRegister.idx
  simp [h]

theorem inv_default : Inv SymbolRegister.default := by
  intro n i
  simp [SymbolRegister.default, lookupIdx]

theorem inv_preserved (r : SymbolRegister) (n : String) (hI : Inv r) :
    Inv (r.idx n).2 := by
  cases h : r.try_idx n with
  | some i => rw [idx_of_hit r n i h]; exact hI
  | none =>
    rw [idx_of_miss r n h]
    dsimp only
    intro m i
    constructor
    · intro hm
      simp only [lookupIdx] at hm
      by_cases hmn : m = n
      · subst hmn
        simp at hm
        subst hm
        simp
      · simp [hmn] at hm
        have := (hI m i).1 hm
        have hlt : i < r.names.length := by
          rcases List.getElem?_eq_some_iff.1 this with ⟨hl, _⟩
          exact hl
        rw [List.getElem?_append, if_pos hlt]
        exact this
    · intro hm
      by_cases hlt : i < r.names.length
      · rw [List.getElem?_append, if_pos hlt] at hm
        have := (hI m i).2 hm
        simp only [lookupIdx]
        by_cases hmn : m = n
        · subst hmn
          simp only [SymbolRegister.try_idx] at h
          rw [h] at this
          exact absurd this (by simp)
        · simp [hmn, this]
      · by_cases heq : i = r.names.length
        · subst heq
          simp at hm
          subst hm
          simp [lookupIdx]
        · exfalso
          have hge : r.names.length + 1 ≤ i := by omega
          rw [List.getElem?_eq_none_iff.2 (by simp; omega)] at hm
          exact Option.noConfusion hm

theorem reachable_inv (r : SymbolRegister) (h : Reachable r) : Inv r := by
  induction h with
  | empty => exact inv_default
  | step r n _ ih => exact inv_preserved r n ih

/-- After interning `n`, the map resolves `n` to the returned index. -/
theorem try_idx_after (r : SymbolRegister) (n : String) :
    (r.idx n).2.try_idx n = some (r.idx n).1 := by
  cases h : r.try_idx n with
  | some i => rw [idx_of_hit r n i h]; exact h
  | none =>
    rw [idx_of_miss r n h]
    simp [SymbolRegister.try_idx, lookupIdx]

theorem lookup_lt (r : SymbolRegister) (hI : Inv r) (n : String) (i : Nat)
    (h : r.try_idx n = some i) : i < r.names.length := by
  have := (hI n i).1 h
  rcases List.getElem?_eq_some_iff.1 this with ⟨hl, _⟩
  exact hl

theorem lookup_inj (r : SymbolRegister) (hI : Inv r) (a b : String) (i : Nat)
    (ha : r.try_idx a = some i) (hb : r.try_idx b = some i) : a = b := by
  have ha' := (hI a i).1 ha
  have hb' := (hI b i).1 hb
  exact Option.some_injective _ (ha'.symm.trans hb')

theorem idx_names_mono (r : SymbolRegister) (n : String) :
    r.names.length ≤ (r.idx n).2.names.length := by
  cases h : r.try_idx n with
  | some i => rw [idx_of_hit r n i h]
  | none => rw [idx_of_miss r n h]; simp

theorem idx_names_stable (r : SymbolRegister) (n : String) (i : Nat)
    (hi : i < r.names.length) : (r.idx n).2.names[i]? = r.names[i]? := by
  cases h : r.try_idx n with
  | some j => rw [idx_of_hit r n j h]
  | none =>
    rw [idx_of_miss r n h]
    dsimp only
    rw [List.getElem?_append, if_pos hi]

theorem reachableFrom_length_le (r r' : SymbolRegister)
    (h : ReachableFrom r r') : r.names.length ≤ r'.names.length := by
  induction h with
  | refl => exact Nat.le_refl _
  | step r' n h ih => exact Nat.le_trans ih (idx_names_mono r' n)

theorem reachableFrom_names_stable (r r' : SymbolRegister)
    (h : ReachableFrom r r') (i : Nat) (hi : i < r.names.length) :
    r'.names[i]? = r.names[i]? := by
  induction h with
  | refl => rfl
  | step r' n h ih =>
    rw [idx_names_stable r' n i
      (Nat.lt_of_lt_of_le hi (reachableFrom_length_le r r' h))]
    exact ih

theorem roundtrip_lemma (r : SymbolRegister) (hr : Reachable r)
    (s : String) :
    Symbol.name (Symbol.new r s).2 (Symbol.new r s).1 = some s := by
  rw [new_snd_eq_idx_snd, new_fst_eq_idx_fst]
  have hI : Inv (r.idx s).2 := inv_preserved r s (reachable_inv r hr)
  have hl := try_idx_after r s
  exact (hI s (r.idx s).1).1 hl

theorem mem_of_mem_set {α : Type} (l : List α) (t : Nat) (v x : α)
    (h : x ∈ l.set t v) : x = v ∨ x ∈ l := by
  induction l generalizing t with
  | nil => cases h
  | cons a tl ih =>
    cases t with
    | zero =>
      rcases List.mem_cons.1 h with h1 | h1
      · exact Or.inl h1
      · exact Or.inr (List.mem_cons.2 (Or.inr h1))
    | succ t =>
      rcases List.mem_cons.1 h with h1 | h1
      · exact Or.inr (List.mem_cons.2 (Or.inl h1))
      · rcases ih t h1 with h2 | h2
        · exact Or.inl h2
        · exact Or.inr (List.mem_cons.2 (Or.inr h2))

theorem concInv_step (r0 : SymbolRegister) (nm : String)
    (hnew : r0.try_idx nm = none) (c c' : SymbolRegister × List TState)
    (hI : ConcInv r0 nm c) (hs : CStep nm c c') : ConcInv r0 nm c' := by
  have hfst : (r0.idx nm).1 = r0.names.length := by
    rw [idx_of_miss r0 nm hnew]
  have hta : (r0.idx nm).2.try_idx nm = some r0.names.length := by
    have h := try_idx_after r0 nm
    rw [hfst] at h
    exact h
  cases hs with
  | readHit r ts t i hts hl =>
    rcases hI with ⟨h1, h2⟩ | ⟨h1, h2⟩
    · have hr : r = r0 := h1
      subst hr
      rw [hnew] at hl
      exact absurd hl (by simp)
    · have hr : r = (r0.idx nm).2 := h1
      subst hr
      rw [hta] at hl
      have hi : i = r0.names.length := Option.some_injective _ hl.symm
      refine Or.inr ⟨rfl, ?_⟩
      intro s hsm
      rcases mem_of_mem_set _ _ _ _ hsm with heq | hm
      · exact Or.inr (Or.inr (by rw [heq, hi]))
      · exact h2 s hm
  | readMiss r ts t hts hl =>
    rcases hI with ⟨h1, h2⟩ | ⟨h1, h2⟩
    · have hr : r = r0 := h1
      subst hr
      refine Or.inl ⟨rfl, ?_⟩
      intro s hsm
      rcases mem_of_mem_set _ _ _ _ hsm with heq | hm
      · exact Or.inr heq
      · exact h2 s hm
    · have hr : r = (r0.idx nm).2 := h1
      subst hr
      rw [hta] at hl
      exact absurd hl (by simp)
  | write r ts t hts =>
    rcases hI with ⟨h1, h2⟩ | ⟨h1, h2⟩
    · have hr : r = r0 := h1
      subst hr
      refine Or.inr ⟨rfl, ?_⟩
      intro s hsm
      rcases mem_of_mem_set _ _ _ _ hsm with heq | hm
      · exact Or.inr (Or.inr (by rw [heq, hfst]))
      · rcases h2 s hm with h | h
        · exact Or.inl h
        · exact Or.inr (Or.inl h)
    · have hr : r = (r0.idx nm).2 := h1
      subst hr
      have hidx : (r0.idx nm).2.idx nm = (r0.names.length, (r0.idx nm).2) :=
        idx_of_hit _ nm _ hta
      refine Or.inr ⟨by rw [hidx], ?_⟩
      intro s hsm
      rcases mem_of_mem_set _ _ _ _ hsm with heq | hm
      · exact Or.inr (Or.inr (by rw [heq, hidx]))
      · exact h2 s hm

theorem concInv_run (r0 : SymbolRegister) (nm : String)
    (hnew : r0.try_idx nm = none) (c c' : SymbolRegister × List TState)
    (hI : ConcInv r0 nm c)
    (h : Relation.ReflTransGen (CStep nm) c c') : ConcInv r0 nm c' := by
  induction h with
  | refl => exact hI
  | tail hab hbc ih => exact concInv_step r0 nm hnew _ _ ih hbc

theorem cstep_length (nm : String) (c c' : SymbolRegister × List TState)
    (h : CStep nm c c') : c'.2.length = c.2.length := by
  cases h <;> simp

theorem crun_length (nm : String) (c c' : SymbolRegister × List TState)
    (h : Relation.ReflTransGen (CStep nm) c c') :
    c'.2.length = c.2.length := by
  induction h with
  | refl => rfl
  | tail hab hbc ih => rw [cstep_length nm _ _ hbc, ih]

theorem new_of_hit (r : SymbolRegister) (n : String) (i : Nat)
    (h : r.try_idx n = some i) : Symbol.new r n = (⟨i⟩, r) := by
  unfold Symbol.new
  simp [h, idx_of_hit r n i h]

theorem new_of_miss (r : SymbolRegister) (n : String)
    (h : r.try_idx n = none) :
    Symbol.new r n = (⟨r.names.length⟩,
      ⟨r.names ++ [n], (n, r.names.length) :: r.indices⟩) := by
  unfold Symbol.new
  simp [h, idx_of_miss r n h]

theorem symbol_lt_iff (a b : Symbol) : a < b ↔ a.idx < b.idx := Iff.rfl

/-- Claim C1: interning is idempotent and injective on names: after any
prior interning history, `Symbol::new(a) == Symbol::new(a)`, and
`Symbol::new(a) == Symbol::new(b)` iff `a = b` as strings. -/
theorem newSymbol_idempotent_injective (r : SymbolRegister)
    (hr : Reachable r) (a b : String) :
    (Symbol.new (Symbol.new r a).2 a).1 = (Symbol.new r a).1 ∧
    ((Symbol.new (Symbol.new r a).2 b).1 = (Symbol.new r a).1 ↔ a = b) := by
  have hI1 : Inv (r.idx a).2 := inv_preserved r a (reachable_inv r hr)
  have hta : (r.idx a).2.try_idx a = some (r.idx a).1 := try_idx_after r a
  have hsnd := new_snd_eq_idx_snd r a
  have hfst := new_fst_eq_idx_fst r a
  have hidem : (Symbol.new (Symbol.new r a).2 a).1 = (Symbol.new r a).1 := by
    rw [hsnd, hfst, new_of_hit _ a (r.idx a).1 hta]
  refine ⟨hidem, ?_, ?_⟩
  · intro h
    rw [hsnd, hfst] at h
    cases htb : (r.idx a).2.try_idx b with
    | some j =>
      rw [new_of_hit _ b j htb] at h
      have hj : j = (r.idx a).1 := by
        have := congrArg Symbol.idx h
        simpa using this
      subst hj
      exact lookup_inj _ hI1 a b (r.idx a).1 hta htb
    | none =>
      rw [new_of_miss _ b htb] at h
      have hj : (r.idx a).2.names.length = (r.idx a).1 := by
        have := congrArg Symbol.idx h
        simpa using this
      have hlt := lookup_lt _ hI1 a (r.idx a).1 hta
      omega
  · intro h
    subst h
    exact hidem

/-- Claim C2: round-trip: interning `s` in any reachable register and
asking the resulting handle for its name yields `s`. -/
theorem symbol_name_roundtrip (r : SymbolRegister) (hr : Reachable r)
    (s : String) :
    Symbol.name (Symbol.new r s).2 (Symbol.new r s).1 = some s :=
  roundtrip_lemma r hr s

/-- Claim C3: a new name gets the identifier equal to the current table
length; a name first interned strictly before another (both new at the
time) gets the strictly smaller handle; interning x, y, z into the
empty register yields identifiers 0, 1, 2. -/
theorem intern_sequential_identifiers :
    (∀ (r : SymbolRegister) (nm : String), r.try_idx nm = none →
        (r.idx nm).1 = r.names.length) ∧
    (∀ (r r2 : SymbolRegister) (a b : String),
        r.try_idx a = none → ReachableFrom (r.idx a).2 r2 →
        r2.try_idx b = none →
        (⟨(r.idx a).1⟩ : Symbol) < ⟨(r2.idx b).1⟩) ∧
    ((SymbolRegister.default.idx "x").1 = 0 ∧
      ((SymbolRegister.default.idx "x").2.idx "y").1 = 1 ∧
      (((SymbolRegister.default.idx "x").2.idx "y").2.idx "z").1 = 2) := by
  have hfst : ∀ (r : SymbolRegister) (nm : String), r.try_idx nm = none →
      (r.idx nm).1 = r.names.length := by
    intro r nm h
    rw [idx_of_miss r nm h]
  refine ⟨hfst, ?_, by decide⟩
  intro r r2 a b ha hfrom hb
  rw [symbol_lt_iff]
  dsimp only
  rw [hfst r a ha, hfst r2 b hb]
  have h1 : (r.idx a).2.names.length = r.names.length + 1 := by
    rw [idx_of_miss r a ha]; simp
  have h2 := reachableFrom_length_le _ r2 hfrom
  omega

/-- Claim C4: in every reachable register state the `names` vector and
the `indices` map are inverse bijections between the registered names
and the identifiers below the table length, and interning preserves
the invariant. -/
theorem register_bijection (r : SymbolRegister) (hr : Reachable r) :
    (∀ i n, r.names[i]? = some n → r.try_idx n = some i) ∧
    (∀ n i, r.try_idx n = some i →
        r.names[i]? = some n ∧ i < r.names.length) ∧
    (∀ a b i, r.try_idx a = some i → r.try_idx b = some i → a = b) ∧
    (∀ n, Inv (r.idx n).2) := by
  have hI := reachable_inv r hr
  exact ⟨fun i n h => (hI n i).2 h,
    fun n i h => ⟨(hI n i).1 h, lookup_lt r hI n i h⟩,
    fun a b i ha hb => lookup_inj r hI a b i ha hb,
    fun n => inv_preserved r n hI⟩

/-- Claim C5: asking for the name of an identifier at or above the
table length fails (the modelled panic, `none`), never returning a
wrong or empty name; an identifier produced by interning always
resolves to its name, in the resulting state and in every later one. -/
theorem name_oob_safe (r : SymbolRegister) (hr : Reachable r) :
    (∀ i, r.names.length ≤ i → SymbolRegister.name r i = none) ∧
    (∀ s r2, ReachableFrom (Symbol.new r s).2 r2 →
        Symbol.name r2 (Symbol.new r s).1 = some s) := by
  constructor
  · intro i h
    unfold SymbolRegister.name
    exact List.getElem?_eq_none_iff.2 h
  · intro s r2 h2
    have hrt := roundtrip_lemma r hr s
    unfold Symbol.name SymbolRegister.name at hrt ⊢
    have hlt : (Symbol.new r s).1.idx < (Symbol.new r s).2.names.length :=
      (List.getElem?_eq_some_iff.1 hrt).1
    rw [reachableFrom_names_stable _ r2 h2 _ hlt]
    exact hrt

/-- Claim C6: a handle serializes to its textual name as a plain
string, and deserializing that string re-interns it, so even in a
fresh empty register the decoded handle's name is the original text. -/
theorem serialization_roundtrip (r : SymbolRegister) (hr : Reachable r)
    (s : String) :
    serialize_sym (Symbol.new r s).2 (Symbol.new r s).1.idx = some s ∧
    (∀ r0, Reachable r0 →
        Symbol.name (deserialize_sym r0 s).2
          ⟨(deserialize_sym r0 s).1⟩ = some s) := by
  constructor
  · exact roundtrip_lemma r hr s
  · intro r0 h0
    exact roundtrip_lemma r0 h0 s

/-- Claim C8: the default handle carries identifier 0; once some name
occupies index 0, `Symbol::new` of that first name returns the default
handle; on the empty register the default handle resolves to no name. -/
theorem default_symbol_aliases_first (r : SymbolRegister)
    (hr : Reachable r) (n0 : String) (h0 : r.names[0]? = some n0) :
    Symbol.defaultSym = ⟨0⟩ ∧
    (Symbol.new r n0).1 = Symbol.defaultSym ∧
    Symbol.name SymbolRegister.default Symbol.defaultSym = none := by
  have hI := reachable_inv r hr
  have hl : r.try_idx n0 = some 0 := (hI n0 0).2 h0
  refine ⟨rfl, ?_, rfl⟩
  rw [new_of_hit r n0 0 hl]
  rfl

/-- Claim C9: interning an existing name leaves the register unchanged;
interning a new name only appends it to `names` and adds the single
new map entry, leaving every existing entry of both maps intact. -/
theorem intern_frame (r : SymbolRegister) (nm : String) :
    (∀ i, r.try_idx nm = some i → r.idx nm = (i, r)) ∧
    (r.try_idx nm = none →
        (r.idx nm).2.names = r.names ++ [nm] ∧
        (r.idx nm).2.indices = (nm, r.names.length) :: r.indices ∧
        (∀ m, m ≠ nm → (r.idx nm).2.try_idx m = r.try_idx m) ∧
        (∀ i, i < r.names.length →
            (r.idx nm).2.names[i]? = r.names[i]?)) := by
  constructor
  · exact fun i h => idx_of_hit r nm i h
  · intro h
    rw [idx_of_miss r nm h]
    refine ⟨rfl, rfl, ?_, ?_⟩
    · intro m hm
      simp [SymbolRegister.try_idx, lookupIdx, hm]
    · intro i hi
      dsimp only
      rw [List.getElem?_append, if_pos hi]

/-- Claim C10: serializing a handle whose identifier was never assigned
fails via the out-of-bounds name lookup (the modelled panic, `none`)
rather than producing a wire value; in particular the default handle
on the empty register. -/
theorem serialize_unassigned_panics :
    (∀ (r : SymbolRegister) (i : Nat), r.names.length ≤ i →
        serialize_sym r i = none) ∧
    serialize_sym SymbolRegister.default Symbol.defaultSym.idx = none := by
  refine ⟨?_, rfl⟩
  intro r i h
  unfold serialize_sym Symbol.name SymbolRegister.name
  exact List.getElem?_eq_none_iff.2 h

theorem newSymbol_idempotent_injective_witness :
    (Symbol.new (Symbol.new SymbolRegister.default "x").2 "x").1 =
        (Symbol.new SymbolRegister.default "x").1 ∧
    ((Symbol.new (Symbol.new SymbolRegister.default "x").2 "y").1 =
        (Symbol.new SymbolRegister.default "x").1 ↔ "x" = "y") :=
  newSymbol_idempotent_injective SymbolRegister.default Reachable.empty
    "x" "y"

theorem symbol_name_roundtrip_witness :
    Symbol.name (Symbol.new SymbolRegister.default "foo").2
      (Symbol.new SymbolRegister.default "foo").1 = some "foo" :=
  symbol_name_roundtrip SymbolRegister.default Reachable.empty "foo"

theorem intern_sequential_identifiers_witness :
    (SymbolRegister.default.idx "x").1 =
        SymbolRegister.default.names.length ∧
    (⟨(SymbolRegister.default.idx "x").1⟩ : Symbol) <
      ⟨((SymbolRegister.default.idx "x").2.idx "y").1⟩ :=
  ⟨intern_sequential_identifiers.1 SymbolRegister.default "x" (by decide),
   intern_sequential_identifiers.2.1 SymbolRegister.default
     (SymbolRegister.default.idx "x").2 "x" "y" (by decide)
     ReachableFrom.refl (by decide)⟩

theorem register_bijection_witness :
    (SymbolRegister.default.idx "x").2.try_idx "x" = some 0 ∧
    (SymbolRegister.default.idx "x").2.names[0]? = some "x" ∧
    0 < (SymbolRegister.default.idx "x").2.names.length :=
  have h := register_bijection (SymbolRegister.default.idx "x").2
    (Reachable.step SymbolRegister.default "x" Reachable.empty)
  have hx : (SymbolRegister.default.idx "x").2.try_idx "x" = some 0 :=
    h.1 0 "x" (by decide)
  ⟨hx, (h.2.1 "x" 0 hx).1, (h.2.1 "x" 0 hx).2⟩

theorem name_oob_safe_witness :
    SymbolRegister.name SymbolRegister.default 0 = none ∧
    Symbol.name (Symbol.new SymbolRegister.default "x").2
      (Symbol.new SymbolRegister.default "x").1 = some "x" :=
  have h := name_oob_safe SymbolRegister.default Reachable.empty
  ⟨h.1 0 (by decide),
   h.2 "x" (Symbol.new SymbolRegister.default "x").2 ReachableFrom.refl⟩

theorem serialization_roundtrip_witness :
    serialize_sym (Symbol.new SymbolRegister.default "foo").2
      (Symbol.new SymbolRegister.default "foo").1.idx = some "foo" ∧
    Symbol.name (deserialize_sym SymbolRegister.default "foo").2
      ⟨(deserialize_sym SymbolRegister.default "foo").1⟩ = some "foo" :=
  have h := serialization_roundtrip SymbolRegister.default
    Reachable.empty "foo"
  ⟨h.1, h.2 SymbolRegister.default Reachable.empty⟩

theorem default_symbol_aliases_first_witness :
    Symbol.defaultSym = ⟨0⟩ ∧
    (Symbol.new (SymbolRegister.default.idx "x").2 "x").1 =
        Symbol.defaultSym ∧
    Symbol.name SymbolRegister.default Symbol.defaultSym = none :=
  default_symbol_aliases_first (SymbolRegister.default.idx "x").2
    (Reachable.step SymbolRegister.default "x" Reachable.empty)
    "x" (by decide)

theorem intern_frame_witness :
    (SymbolRegister.default.idx "x").2.names =
        SymbolRegister.default.names ++ ["x"] ∧
    (SymbolRegister.default.idx "x").2.try_idx "y" =
        SymbolRegister.default.try_idx "y" :=
  have h := (intern_frame SymbolRegister.default "x").2 (by decide)
  ⟨h.1, h.2.2.1 "y" (by decide)⟩

theorem serialize_unassigned_panics_witness :
    serialize_sym (SymbolRegister.default.idx "x").2 3 = none :=
  serialize_unassigned_panics.1 (SymbolRegister.default.idx "x").2 3
    (by decide)

/-- Claim C7: when N threads concurrently intern the same new name,
every interleaving of the two-phase (read-then-write, re-checked)
protocol finishes with all N threads holding the same identifier, and
the table grows by exactly one entry for that name. -/
theorem concurrent_intern_unique (r0 : SymbolRegister) (nm : String)
    (ts0 ts1 : List TState) (r1 : SymbolRegister)
    (hnew : r0.try_idx nm = none)
    (hstart : ∀ s ∈ ts0, s = TState.start)
    (hne : ts0 ≠ [])
    (hrun : Relation.ReflTransGen (CStep nm) (r0, ts0) (r1, ts1))
    (hdone : ∀ s ∈ ts1, ∃ i, s = TState.done i) :
    (∀ s ∈ ts1, s = TState.done r0.names.length) ∧
    r1.names.length = r0.names.length + 1 := by
  have hI0 : ConcInv r0 nm (r0, ts0) :=
    Or.inl ⟨rfl, fun s hs => Or.inl (hstart s hs)⟩
  have hI1 := concInv_run r0 nm hnew _ _ hI0 hrun
  have hlen := crun_length nm _ _ hrun
  have hts1ne : ts1 ≠ [] := by
    intro h
    apply hne
    rw [h] at hlen
    exact List.length_eq_zero.1 hlen.symm
  rcases hI1 with ⟨h1, h2⟩ | ⟨h1, h2⟩
  · exfalso
    cases hts : ts1 with
    | nil => exact hts1ne hts
    | cons s tl =>
      subst hts
      rcases hdone s (List.mem_cons_self s tl) with ⟨i, hi⟩
      rcases h2 s (List.mem_cons_self s tl) with h | h <;>
        rw [hi] at h <;> exact TState.noConfusion h
  · have hr1 : r1 = (r0.idx nm).2 := h1
    constructor
    · intro s hs
      rcases hdone s hs with ⟨i, hi⟩
      rcases h2 s hs with h | h | h
      · rw [hi] at h; exact TState.noConfusion h
      · rw [hi] at h; exact TState.noConfusion h
      · exact h
    · rw [hr1, idx_of_miss r0 nm hnew]
      simp

theorem concurrent_intern_unique_witness :
    TState.done 0 = TState.done SymbolRegister.default.names.length ∧
    (SymbolRegister.default.idx "x").2.names.length =
      SymbolRegister.default.names.length + 1 := by
  have s1 : CStep "x"
      (SymbolRegister.default, [TState.start, TState.start])
      (SymbolRegister.default, [TState.pending, TState.start]) :=
    CStep.readMiss SymbolRegister.default [TState.start, TState.start] 0
      (by decide) (by decide)
  have s2 : CStep "x"
      (SymbolRegister.default, [TState.pending, TState.start])
      ((SymbolRegister.default.idx "x").2, [TState.done 0, TState.start]) :=
    CStep.write SymbolRegister.default [TState.pending, TState.start] 0
      (by decide)
  have s3 : CStep "x"
      ((SymbolRegister.default.idx "x").2, [TState.done 0, TState.start])
      ((SymbolRegister.default.idx "x").2,
        [TState.done 0, TState.done 0]) :=
    CStep.readHit (SymbolRegister.default.idx "x").2
      [TState.done 0, TState.start] 1 0 (by decide) (by decide)
  have hrun : Relation.ReflTransGen (CStep "x")
      (SymbolRegister.default, [TState.start, TState.start])
      ((SymbolRegister.default.idx "x").2,
        [TState.done 0, TState.done 0]) :=
    Relation.ReflTransGen.tail
      (Relation.ReflTransGen.tail (Relation.ReflTransGen.single s1) s2) s3
  have hdone : ∀ s ∈ [TState.done 0, TState.done 0],
      ∃ i, s = TState.done i := by
    intro s hs
    simp only [List.mem_cons, List.not_mem_nil, or_false] at hs
    rcases hs with h | h <;> exact ⟨0, h⟩
  have h := concurrent_intern_unique SymbolRegister.default "x"
    [TState.start, TState.start] [TState.done 0, TState.done 0]
    (SymbolRegister.default.idx "x").2 (by decide) (by decide)
    (by decide) hrun hdone
  exact ⟨h.1 (TState.done 0) (by decide), h.2⟩

end MathSymbols
